import Mathlib

/-!
Verification of the Loki chunk decoder of the `chunks-inspect` repository.

Modelling conventions (shallow embedding of the Go source):

* A `[]byte` buffer is a `List Nat`; each element stands for one byte.
* Go runtime panics (out-of-range slice indexing) are the `GoResult.oob`
  outcome, distinct from a returned `error` (`GoResult.err`) and from
  success (`GoResult.ok`).  `make([]byte, n)` gives `cap = len`, so a slice
  expression `data[lo:hi]` is in range exactly when `lo ≤ hi ≤ data.length`.
* Machine integers are `Nat`/`Int` with explicit reduction `% 2 ^ 64` at the
  points where Go computes modulo 2^64 (`uint64` addition, shifts inside
  `binary.Uvarint`).  The conversion `int(x)` of a `uint64` used as the loop
  bound in `parseLokiChunk` yields a negative number for `x ≥ 2 ^ 63`, so the
  loop body runs `if x < 2 ^ 63 then x else 0` times.
* The gzip/lz4/snappy decompressors are external libraries; they are a
  parameter `ext : ExtCodec` of every parsing function.  The identity codecs
  (`encNone`, `encDumb`) are part of the repository source (their `readerFn`
  returns the reader unchanged) and are modelled directly.
* The SHA-256 digest fields (`rawDataDigest`, `uncompressedDataDigest`) are
  informational outputs of an external hash library; they never influence
  control flow or any other field and are omitted from the embedding.
* Error values are `fmt.Errorf` strings in Go; they are modelled by the
  inductive type `Err` with one constructor per `Errorf` site.
-/

set_option maxRecDepth 100000

/-- 2 ^ 64, the modulus of Go's `uint64` arithmetic. -/
def U64 : Nat := 2 ^ 64

/-- 2 ^ 63; `uint64` values below it convert to a nonnegative `int`. -/
def U63 : Nat := 2 ^ 63

/-- One step of the bit-reflected CRC-32C division:
`if crc&1 == 1 { crc = (crc >> 1) ^ 0x82F63B78 } else { crc >>= 1 }`. -/
def crcBit (c : Nat) : Nat :=
  if c &&& 1 = 1 then (c >>> 1) ^^^ 0x82F63B78 else c >>> 1

/-- Feed one byte into a CRC-32C state (eight shift/xor rounds). -/
def crc32cByte (crc b : Nat) : Nat :=
  (List.range 8).foldl (fun c _ => crcBit c) (crc ^^^ (b &&& 0xFF))

/-- `crc32.Checksum(data, castagnoliTable)`: CRC-32C of a byte buffer. -/
def crc32c (data : List Nat) : Nat :=
  (data.foldl crc32cByte 0xFFFFFFFF) ^^^ 0xFFFFFFFF

/-- `binary.BigEndian.Uint32`: big-endian 32-bit read of the first 4 bytes. -/
def be32 (b : List Nat) : Nat :=
  (b.getD 0 0) <<< 24 ||| (b.getD 1 0) <<< 16 ||| (b.getD 2 0) <<< 8 ||| b.getD 3 0

/-- `binary.BigEndian.Uint64`: big-endian 64-bit read of the first 8 bytes. -/
def be64 (b : List Nat) : Nat :=
  (b.getD 0 0) <<< 56 ||| (b.getD 1 0) <<< 48 ||| (b.getD 2 0) <<< 40 |||
  (b.getD 3 0) <<< 32 ||| (b.getD 4 0) <<< 24 ||| (b.getD 5 0) <<< 16 |||
  (b.getD 6 0) <<< 8 ||| b.getD 7 0

/-- Big-endian 4-byte encoding, used to build concrete test buffers. -/
def be32bytes (n : Nat) : List Nat :=
  [(n >>> 24) &&& 0xFF, (n >>> 16) &&& 0xFF, (n >>> 8) &&& 0xFF, n &&& 0xFF]

/-- Big-endian 8-byte encoding, used to build concrete test buffers. -/
def be64bytes (n : Nat) : List Nat :=
  [(n >>> 56) &&& 0xFF, (n >>> 48) &&& 0xFF, (n >>> 40) &&& 0xFF,
   (n >>> 32) &&& 0xFF, (n >>> 24) &&& 0xFF, (n >>> 16) &&& 0xFF,
   (n >>> 8) &&& 0xFF, n &&& 0xFF]

/-- Loop of Go's `binary.Uvarint`.  Arguments: remaining buffer, byte index
`i`, shift `s`, accumulator `x`.  Returns `some (value, bytesRead)` on
success and `none` where Go returns `n ≤ 0` (empty input, or overflow after
10 bytes, or a 10th byte above 1). -/
def uvarintAux : List Nat → Nat → Nat → Nat → Option (Nat × Nat)
  | [], _, _, _ => Option.none
  | b :: bs, i, s, x =>
    if i = 10 then Option.none
    else if b < 0x80 then
      if i = 9 ∧ 1 < b then Option.none
      else some ((x ||| b <<< s) % U64, i + 1)
    else uvarintAux bs (i + 1) (s + 7) ((x ||| (b &&& 0x7F) <<< s) % U64)

/-- `binary.Uvarint`: unsigned LEB128 decode from the front of a buffer. -/
def uvarintGo (buf : List Nat) : Option (Nat × Nat) :=
  uvarintAux buf 0 0 0

/-- Zig-zag decoding performed by `binary.Varint`:
`x := int64(ux >> 1); if ux&1 != 0 { x = ^x }`. -/
def unzigzag (ux : Nat) : Int :=
  if ux % 2 = 1 then -((ux / 2 : Nat) : Int) - 1 else ((ux / 2 : Nat) : Int)

/-- `binary.Varint`: signed (zig-zag LEB128) decode. -/
def varintGo (buf : List Nat) : Option (Int × Nat) :=
  (uvarintGo buf).map (fun p => (unzigzag p.1, p.2))

/-- Error taxonomy: one constructor per `fmt.Errorf` site of the source. -/
inductive Err : Type where
  /-- `invalid magic number: %0x` -/
  | invalidMagic (num : Nat) : Err
  /-- `unknown format: %d` (wrapped in `failed to read compression`) -/
  | unknownFormat (format : Nat) : Err
  /-- `unknown encoding: %d` (wrapped in `failed to read compression`) -/
  | unknownEncoding (code : Nat) : Err
  /-- `failed to read number of blocks` -/
  | badBlockCount : Err
  /-- `varint: %d` from `readVarint` / `readUvarint` -/
  | varintErr : Err
  /-- `not enough line data, need %d, got %d` -/
  | lineTooShort (need got : Nat) : Err
  /-- failure of an external decompressor (reader construction or read) -/
  | codecErr : Err
deriving DecidableEq, Repr

/-- Outcome of running a piece of Go code: a runtime panic from an
out-of-range slice index, a returned error, or a returned value. -/
inductive GoResult (α : Type) : Type where
  | oob : GoResult α
  | err (e : Err) : GoResult α
  | ok (v : α) : GoResult α
deriving DecidableEq, Repr

/-- The `Encoding` values of the source's codec table. -/
inductive Encoding : Type where
  | encNone | encGZIP | encDumb | encLZ4 | encSnappy
deriving DecidableEq, Repr

/-- The `code` field of each `Encoding` table entry. -/
def encCode : Encoding → Nat
  | .encNone => 0
  | .encGZIP => 1
  | .encDumb => 2
  | .encLZ4 => 3
  | .encSnappy => 4

/-- The `Encodings` table, in source order. -/
def Encodings : List Encoding :=
  [.encNone, .encGZIP, .encDumb, .encLZ4, .encSnappy]

/-- `getCompression(format, code)`: format 1 is always gzip; format 2 looks
the code up in `Encodings`; anything else is an error. -/
def getCompression (format code : Nat) : Except Err Encoding :=
  if format = 1 then .ok .encGZIP
  else if format = 2 then
    match Encodings.find? (fun e => encCode e == code) with
    | some e => .ok e
    | Option.none => .error (.unknownEncoding code)
  else .error (.unknownFormat format)

/-- External decompressors (gzip, lz4, snappy): building a reader over the
payload and draining it either yields the decompressed bytes or fails. -/
def ExtCodec : Type := Encoding → List Nat → Except Unit (List Nat)

/-- An `ExtCodec` that fails for every compressed codec; concrete test
buffers in this file only use the identity codecs. -/
def extFail : ExtCodec := fun _ _ => .error ()

/-- `readerFn` + `ioutil.ReadAll`: the identity codecs (`encNone`,
`encDumb`) return the reader unchanged, so draining returns the payload
verbatim; the compressed codecs are delegated to the external library. -/
def runCodec (ext : ExtCodec) : Encoding → List Nat → Except Unit (List Nat)
  | .encNone, d => .ok d
  | .encDumb, d => .ok d
  | e, d => ext e d

/-- One decoded log entry: `timestamp int64`, `line string` (raw bytes). -/
structure LokiEntry : Type where
  timestamp : Int
  line : List Nat
deriving DecidableEq, Repr

/-- The five descriptor fields read for each block of the directory. -/
structure LokiBlockDesc : Type where
  numEntries : Nat
  minT : Int
  maxT : Int
  dataOffset : Nat
  dataLength : Nat
deriving DecidableEq, Repr

/-- A materialized `LokiBlock` (SHA-256 digest fields omitted, see header). -/
structure LokiBlock : Type where
  numEntries : Nat
  minT : Int
  maxT : Int
  dataOffset : Nat
  dataLength : Nat
  rawData : List Nat
  entries : List LokiEntry
  uncompressedLength : Nat
  storedChecksum : Nat
  computedChecksum : Nat
deriving DecidableEq, Repr

/-- The descriptor fields of a materialized block. -/
def LokiBlock.toDesc (b : LokiBlock) : LokiBlockDesc :=
  ⟨b.numEntries, b.minT, b.maxT, b.dataOffset, b.dataLength⟩

/-- A decoded `LokiChunk` (checksum-aware variant of the source). -/
structure LokiChunk : Type where
  encoding : Encoding
  blocks : List LokiBlock
  metadataChecksum : Nat
  computedMetadataChecksum : Nat
deriving DecidableEq, Repr

/-- `readUvarint`: decode an unsigned varint, or fail when `n ≤ 0`;
on success the buffer advances by `n` bytes. -/
def readUvarintE (buf : List Nat) : Except Err (Nat × List Nat) :=
  match uvarintGo buf with
  | Option.none => .error .varintErr
  | some (v, n) => .ok (v, buf.drop n)

/-- `readVarint`: signed companion of `readUvarintE`. -/
def readVarintE (buf : List Nat) : Except Err (Int × List Nat) :=
  match varintGo buf with
  | Option.none => .error .varintErr
  | some (v, n) => .ok (v, buf.drop n)

/-- The five sequential descriptor reads of one loop iteration of
`parseLokiChunk` (`numEntries`, `minT`, `maxT`, `dataOffset`,
`dataLength`); the source threads the previous error through each read,
which is early-exit error propagation. -/
def decodeDescriptor (meta : List Nat) : Except Err (LokiBlockDesc × List Nat) :=
  match readUvarintE meta with
  | .error e => .error e
  | .ok (ne, m1) =>
    match readVarintE m1 with
    | .error e => .error e
    | .ok (mnT, m2) =>
      match readVarintE m2 with
      | .error e => .error e
      | .ok (mxT, m3) =>
        match readUvarintE m3 with
        | .error e => .error e
        | .ok (off, m4) =>
          match readUvarintE m4 with
          | .error e => .error e
          | .ok (len, m5) => .ok (⟨ne, mnT, mxT, off, len⟩, m5)

/-- The pure varint phase of the directory: decode `n` descriptors in
order.  This is the descriptor-decoding part of the chunk loop, separated
from block materialization for use in theorem statements. -/
def decodeDirectory : Nat → List Nat → Except Err (List LokiBlockDesc × List Nat)
  | 0, meta => .ok ([], meta)
  | Nat.succ r, meta =>
    match decodeDescriptor meta with
    | .error e => .error e
    | .ok (d, meta') =>
      match decodeDirectory r meta' with
      | .error e => .error e
      | .ok (ds, rest) => .ok (d :: ds, rest)

/-- The descriptors produced by a successful directory decode. -/
def dirDescs (n : Nat) (meta : List Nat) : Option (List LokiBlockDesc) :=
  match decodeDirectory n meta with
  | .ok (ds, _) => some ds
  | .error _ => Option.none

/-- Auxiliary bound: `varintGo`/`uvarintGo` consume at least one byte. -/
theorem uvarintAux_consumes {buf : List Nat} {i s x v n : Nat}
    (h : uvarintAux buf i s x = some (v, n)) : i < n := by
  induction buf generalizing i s x with
  | nil => simp [uvarintAux] at h
  | cons b bs ih =>
    unfold uvarintAux at h
    split at h
    · exact absurd h (by simp)
    · split at h
      · split at h
        · exact absurd h (by simp)
        · simp at h
          omega
      · exact Nat.lt_of_succ_lt_succ (Nat.lt_succ_of_lt (ih h))

/-- `uvarintGo` consumes at least one byte. -/
theorem uvarintGo_consumes {buf : List Nat} {v n : Nat}
    (h : uvarintGo buf = some (v, n)) : 1 ≤ n :=
  uvarintAux_consumes h

/-- `varintGo` consumes at least one byte. -/
theorem varintGo_consumes {buf : List Nat} {v : Int} {n : Nat}
    (h : varintGo buf = some (v, n)) : 1 ≤ n := by
  unfold varintGo at h
  cases hu : uvarintGo buf with
  | none => rw [hu] at h; simp at h
  | some p =>
    rw [hu] at h
    simp at h
    cases p with
    | mk a b =>
      have : b = n := by simp at h; omega
      subst this
      exact uvarintGo_consumes hu

/-- `parseLokiBlock`'s entry loop, with an explicit fuel argument making
the termination measure structural: every iteration consumes at least one
byte (the timestamp varint), so from the initial fuel `buf.length + 1` the
zero-fuel case is unreachable (`readEntriesF_congr` proves fuel
irrelevance above the buffer length).  Each iteration decodes a signed
varint timestamp, an unsigned varint line length and that many raw bytes
until the buffer is empty.  The Go comparison
`len(decompressed) < int(lineLength)` converts the unsigned length to
`int`: for `lineLength ≥ 2 ^ 63` the converted value is negative, the
comparison is false, and the subsequent slice `decompressed[0:lineLength]`
is out of range. -/
def readEntriesF : Nat → List Nat → GoResult (List LokiEntry)
  | 0, buf => if buf.length = 0 then .ok [] else .oob
  | fuel + 1, buf =>
    if buf.length = 0 then .ok []
    else
      match varintGo buf with
      | Option.none => .err .varintErr
      | some (ts, n1) =>
        match uvarintGo (buf.drop n1) with
        | Option.none => .err .varintErr
        | some (ll, n2) =>
          if ll < U63 then
            if ((buf.drop n1).drop n2).length < ll then
              .err (.lineTooShort ll ((buf.drop n1).drop n2).length)
            else
              match readEntriesF fuel (((buf.drop n1).drop n2).drop ll) with
              | .oob => .oob
              | .err e => .err e
              | .ok es => .ok (⟨ts, ((buf.drop n1).drop n2).take ll⟩ :: es)
          else .oob

/-- The entry loop of `parseLokiBlock`, at its canonical fuel. -/
def readEntries (buf : List Nat) : GoResult (List LokiEntry) :=
  readEntriesF (buf.length + 1) buf

/-- `parseLokiBlock` (digest outputs omitted): build the decompressing
reader, drain it, then decode the entries; returns the decompressed length
and the entries. -/
def parseLokiBlockE (ext : ExtCodec) (enc : Encoding) (data : List Nat) :
    GoResult (Nat × List LokiEntry) :=
  match runCodec ext enc data with
  | .error _ => .err .codecErr
  | .ok dec =>
    match readEntries dec with
    | .oob => .oob
    | .err e => .err e
    | .ok es => .ok (dec.length, es)

/-- The `(uncompressedLength, entries)` pair a block receives from
`parseLokiBlock`: the returned pair on success, `(0, nil)` on error. -/
def blockOutcome (ext : ExtCodec) (enc : Encoding) (data : List Nat) :
    Nat × List LokiEntry :=
  match parseLokiBlockE ext enc data with
  | .ok p => p
  | _ => (0, [])

/-- Go slice expression `data[lo:hi]` (value only; range checks are made
at each use site). -/
def sliceGo (data : List Nat) (lo hi : Nat) : List Nat :=
  (data.take hi).drop lo

/-- `metasOffset := binary.BigEndian.Uint64(data[len(data)-8:])`. -/
def metasOffsetOf (data : List Nat) : Nat :=
  be64 (data.drop (data.length - 8))

/-- `metadata := data[metasOffset : len(data)-(8+4)]` of the checksum-aware
variant. -/
def metaRegionV2 (data : List Nat) : List Nat :=
  sliceGo data (metasOffsetOf data) (data.length - 12)

/-- `metadata := data[metasOffset : len(data)-(8+4)]` of the legacy variant
(the legacy source uses the same `len(data)-(8+4)` upper bound even though
it never reads the 4 checksum bytes). -/
def metaRegionLegacy (data : List Nat) : List Nat :=
  sliceGo data (metasOffsetOf data) (data.length - 12)

/-- Loop bound `int(blocks)` of the descriptor loop: converting a `uint64`
to a 64-bit `int` makes any value `≥ 2 ^ 63` negative, so the loop body
never runs for such counts. -/
def goIntLoopBound (blocks : Nat) : Nat :=
  if blocks < U63 then blocks else 0

/-- Build a `LokiBlock` from its descriptor and materialized parts. -/
def mkBlock (d : LokiBlockDesc) (raw : List Nat) (stored computed ulen : Nat)
    (es : List LokiEntry) : LokiBlock :=
  ⟨d.numEntries, d.minT, d.maxT, d.dataOffset, d.dataLength, raw, es, ulen,
   stored, computed⟩

/-- Upper slice index `dataOffset + dataLength` of a block payload,
computed in `uint64` arithmetic (wraps modulo 2 ^ 64). -/
def blockSliceHi (d : LokiBlockDesc) : Nat :=
  (d.dataOffset + d.dataLength) % U64

/-- `block.rawData = data[block.dataOffset : block.dataOffset+block.dataLength]`. -/
def blockRaw (data : List Nat) (d : LokiBlockDesc) : List Nat :=
  sliceGo data d.dataOffset (blockSliceHi d)

/-- The stored per-block checksum: big-endian 32-bit read of the 4 bytes
following the payload. -/
def blockStored (data : List Nat) (d : LokiBlockDesc) : Nat :=
  be32 (sliceGo data (blockSliceHi d) ((blockSliceHi d + 4) % U64))

/-- The descriptor loop of `parseLokiChunk` (checksum-aware variant).
Each iteration decodes one descriptor, slices the payload
`data[dataOffset : dataOffset+dataLength]` (uint64 addition, hence the
`% 2 ^ 64` in `blockSliceHi`), reads the 4 stored checksum bytes after it,
computes the CRC-32C, parses the block, and appends it.  The error
returned by `parseLokiBlock` is carried as `pending` because the source
only tests it at the start of the next iteration, through
`readUvarint(err, metadata)`; a pending error of the final iteration is
silently dropped. -/
def chunkLoop (ext : ExtCodec) (enc : Encoding) (data : List Nat) :
    Nat → List Nat → Option Err → List LokiBlock → GoResult (List LokiBlock)
  | 0, _, _, acc => .ok acc
  | Nat.succ r, meta, pending, acc =>
    match pending with
    | some e => .err e
    | Option.none =>
      match decodeDescriptor meta with
      | .error e => .err e
      | .ok (d, meta') =>
        if blockSliceHi d < d.dataOffset ∨ data.length < blockSliceHi d then .oob
        else if (blockSliceHi d + 4) % U64 < blockSliceHi d ∨
            data.length < (blockSliceHi d + 4) % U64 then .oob
        else
          match parseLokiBlockE ext enc (blockRaw data d) with
          | .oob => .oob
          | .err e =>
            chunkLoop ext enc data r meta' (some e)
              (acc ++ [mkBlock d (blockRaw data d) (blockStored data d)
                (crc32c (blockRaw data d)) 0 []])
          | .ok (ulen, es) =>
            chunkLoop ext enc data r meta' Option.none
              (acc ++ [mkBlock d (blockRaw data d) (blockStored data d)
                (crc32c (blockRaw data d)) ulen es])

/-- The fixed chunk magic `0x012EE56A`. -/
def MAGIC : Nat := 0x012EE56A

/-- `parseLokiChunk` of the checksum-aware source variant.  The body has
already been read into `data` (`io.ReadFull` failures are outside the body
buffer and not modelled).  All slice expressions panic (`.oob`) when out of
range, exactly where the Go runtime would. -/
def parseLokiChunk (ext : ExtCodec) (data : List Nat) : GoResult LokiChunk :=
  if data.length < 4 then .oob
  else if be32 (data.take 4) ≠ MAGIC then .err (.invalidMagic (be32 (data.take 4)))
  else if data.length < 6 then .oob
  else
    match getCompression (data.getD 4 0) (data.getD 5 0) with
    | .error e => .err e
    | .ok compression =>
      if data.length < 8 then .oob
      else if data.length < 12 then .oob
      else if data.length - 12 < metasOffsetOf data then .oob
      else
        match uvarintGo (metaRegionV2 data) with
        | Option.none => .err .badBlockCount
        | some (blocks, n) =>
          match chunkLoop ext compression data (goIntLoopBound blocks)
              ((metaRegionV2 data).drop n) Option.none [] with
          | .oob => .oob
          | .err e => .err e
          | .ok bs => .ok ⟨compression, bs,
              be32 (sliceGo data (data.length - 12) (data.length - 8)),
              crc32c (metaRegionV2 data)⟩

/-- A legacy-variant `LokiBlock` (part of the older source file: no
checksum fields, digest fields likewise absent). -/
structure LokiBlockL : Type where
  numEntries : Nat
  minT : Int
  maxT : Int
  dataOffset : Nat
  dataLength : Nat
  rawData : List Nat
  entries : List LokiEntry
  uncompressedLength : Nat
deriving DecidableEq, Repr

/-- A legacy-variant `LokiChunk`: encoding and blocks only. -/
structure LokiChunkL : Type where
  encoding : Encoding
  blocks : List LokiBlockL
deriving DecidableEq, Repr

/-- The descriptor loop of the legacy `parseLokiChunk`: no stored-checksum
read and no CRC computation; otherwise identical to `chunkLoop`. -/
def chunkLoopLegacy (ext : ExtCodec) (enc : Encoding) (data : List Nat) :
    Nat → List Nat → Option Err → List LokiBlockL → GoResult (List LokiBlockL)
  | 0, _, _, acc => .ok acc
  | Nat.succ r, meta, pending, acc =>
    match pending with
    | some e => .err e
    | Option.none =>
      match decodeDescriptor meta with
      | .error e => .err e
      | .ok (d, meta') =>
        if blockSliceHi d < d.dataOffset ∨ data.length < blockSliceHi d then .oob
        else
          match parseLokiBlockE ext enc (blockRaw data d) with
          | .oob => .oob
          | .err e =>
            chunkLoopLegacy ext enc data r meta' (some e)
              (acc ++ [⟨d.numEntries, d.minT, d.maxT, d.dataOffset,
                        d.dataLength, blockRaw data d, [], 0⟩])
          | .ok (ulen, es) =>
            chunkLoopLegacy ext enc data r meta' Option.none
              (acc ++ [⟨d.numEntries, d.minT, d.maxT, d.dataOffset,
                        d.dataLength, blockRaw data d, es, ulen⟩])

/-- `parseLokiChunk` of the legacy source variant: same structure as the
checksum-aware variant except that the metadata checksum and per-block
checksums are never read; the metadata slice upper bound is the same
`len(data)-(8+4)`. -/
def parseLokiChunkLegacy (ext : ExtCodec) (data : List Nat) : GoResult LokiChunkL :=
  if data.length < 4 then .oob
  else if be32 (data.take 4) ≠ MAGIC then .err (.invalidMagic (be32 (data.take 4)))
  else if data.length < 6 then .oob
  else
    match getCompression (data.getD 4 0) (data.getD 5 0) with
    | .error e => .err e
    | .ok compression =>
      if data.length < 8 then .oob
      else if data.length < 12 then .oob
      else if data.length - 12 < metasOffsetOf data then .oob
      else
        match uvarintGo (metaRegionLegacy data) with
        | Option.none => .err .badBlockCount
        | some (blocks, n) =>
          match chunkLoopLegacy ext compression data (goIntLoopBound blocks)
              ((metaRegionLegacy data).drop n) Option.none [] with
          | .oob => .oob
          | .err e => .err e
          | .ok bs => .ok ⟨compression, bs⟩

/-- Index-based slice `[lo, hi)` of a buffer, written the way the spec
describes regions ("the buffer slice [metaOffset, len-12)"); compared
against the slices the source computes. -/
def sliceSpec (data : List Nat) (lo hi : Nat) : List Nat :=
  (List.range (hi - lo)).map (fun i => data.getD (lo + i) 0)

/-- `binary.PutUvarint`: unsigned LEB128 encoding (spec-side definition,
used to build the inputs the claims quantify over). -/
def putUvarint (x : Nat) : List Nat :=
  if x < 0x80 then [x] else (x % 0x80 + 0x80) :: putUvarint (x / 0x80)
decreasing_by
  exact Nat.div_lt_self (by omega) (by omega)

/-- Zig-zag encoding used by `binary.PutVarint`:
`ux := uint64(x) << 1; if x < 0 { ux = ^ux }`. -/
def zigzag (x : Int) : Nat :=
  if x < 0 then 2 * x.natAbs - 1 else 2 * x.toNat

/-- `binary.PutVarint`: signed varint encoding. -/
def putVarint (x : Int) : List Nat :=
  putUvarint (zigzag x)

/-- Encoding of one entry as the block format stores it: signed varint
timestamp, unsigned varint line length, then the raw line bytes. -/
def encodeEntry (e : LokiEntry) : List Nat :=
  putVarint e.timestamp ++ putUvarint e.line.length ++ e.line

/-- Concatenated encodings of a list of entries. -/
def encodeEntries (es : List LokiEntry) : List Nat :=
  (es.map encodeEntry).flatten

/-- An entry's fields fit the machine types of the source: the timestamp
is an `int64` and the line's length converts to a nonnegative `int`. -/
def entryFits (e : LokiEntry) : Prop :=
  -(2 ^ 63 : Int) ≤ e.timestamp ∧ e.timestamp < 2 ^ 63 ∧ e.line.length < U63

instance (e : LokiEntry) : Decidable (entryFits e) := by
  unfold entryFits; infer_instance

/-- The payload of the concrete scenario of the spec: entries
`(1000, "a")` and `(2000, "bb")` under the identity codec. -/
def c2payload : List Nat :=
  [0xD0, 0x0F, 0x01, 0x61, 0xA0, 0x1F, 0x02, 0x62, 0x62]

/-- The metadata region of the concrete scenario: block count 1, then
descriptor {count=2, minT=1000, maxT=2000, offset=6, length=9}. -/
def c2meta : List Nat :=
  [0x01, 0x02, 0xD0, 0x0F, 0xA0, 0x1F, 0x06, 0x09]

/-- Body of the concrete scenario: magic, format 2, code 0, raw payload,
metadata region, CRC-32C of the metadata region, metadata offset 6+9=15. -/
def c2buf : List Nat :=
  [0x01, 0x2E, 0xE5, 0x6A, 0x02, 0x00] ++ c2payload ++ c2meta ++
  be32bytes (crc32c c2meta) ++ be64bytes 15

/-- The chunk the concrete scenario decodes to. -/
def c2chunk : LokiChunk :=
  ⟨Encoding.encNone,
   [⟨2, 1000, 2000, 6, 9, c2payload,
     [⟨1000, [0x61]⟩, ⟨2000, [0x62, 0x62]⟩], 9, 0x0102D00F, crc32c c2payload⟩],
   crc32c c2meta, crc32c c2meta⟩

/-- A default `LokiBlock` for positional `List.getD` access in theorem
statements. -/
def dummyBlock : LokiBlock :=
  ⟨0, 0, 0, 0, 0, [], [], 0, 0, 0⟩

/-- The error classes that can arise from decoding one block's payload
(`parseLokiBlock`): a malformed varint, an external-codec failure, or a
truncated line. -/
def entryLevelErr (e : Err) : Prop :=
  e = .varintErr ∨ e = .codecErr ∨ ∃ a b, e = .lineTooShort a b

/-- Facts established for every block of a successfully parsed chunk:
its payload slice and trailing checksum read were in bounds, its stored
and computed checksums are the recorded values, and its entries are
exactly what `parseLokiBlock` yields on its payload. -/
def blockWF (ext : ExtCodec) (enc : Encoding) (data : List Nat) (b : LokiBlock) : Prop :=
  b.dataOffset + b.dataLength + 4 ≤ data.length ∧
  b.rawData = sliceGo data b.dataOffset (b.dataOffset + b.dataLength) ∧
  b.storedChecksum =
    be32 (sliceGo data (b.dataOffset + b.dataLength) (b.dataOffset + b.dataLength + 4)) ∧
  b.computedChecksum = crc32c b.rawData ∧
  (b.uncompressedLength, b.entries) = blockOutcome ext enc b.rawData

/-- Metadata region of the C1 counterexample: a 10-byte varint encoding
the block count 2 ^ 63. -/
def c1meta : List Nat :=
  [0x80, 0x80, 0x80, 0x80, 0x80, 0x80, 0x80, 0x80, 0x80, 0x01]

/-- Body whose directory declares 2 ^ 63 blocks and contains none. -/
def c1buf : List Nat :=
  [0x01, 0x2E, 0xE5, 0x6A, 0x02, 0x00] ++ c1meta ++ [0, 0, 0, 0] ++ be64bytes 6

/-- Body identical to the concrete scenario but with a wrong stored block
checksum (`0xDEADBEEF`) and a wrong stored metadata checksum
(`0x01020304`). -/
def c4buf : List Nat :=
  [0x01, 0x2E, 0xE5, 0x6A, 0x02, 0x00] ++ c2payload ++ [0xDE, 0xAD, 0xBE, 0xEF] ++
  c2meta ++ [1, 2, 3, 4] ++ be64bytes 19

/-- The chunk `c4buf` decodes to: both mismatching checksums recorded,
entries decoded unchanged. -/
def c4chunk : LokiChunk :=
  ⟨Encoding.encNone,
   [⟨2, 1000, 2000, 6, 9, c2payload,
     [⟨1000, [0x61]⟩, ⟨2000, [0x62, 0x62]⟩], 9, 0xDEADBEEF, crc32c c2payload⟩],
   0x01020304, crc32c c2meta⟩

/-- Two-block body whose first (non-final) block payload `[0x80]` is a
malformed varint; the second block is well-formed. -/
def c7buf : List Nat :=
  [0x01, 0x2E, 0xE5, 0x6A, 0x02, 0x00] ++ [0x80] ++ [0, 0, 0, 0] ++
  [0x02, 0x01, 0x41] ++ [0, 0, 0, 0] ++
  [0x02, 0x01, 0x00, 0x00, 0x06, 0x01, 0x01, 0x02, 0x02, 0x0B, 0x03] ++
  [0, 0, 0, 0] ++ be64bytes 18

/-- Two-block body in which both blocks decode cleanly. -/
def c7okbuf : List Nat :=
  [0x01, 0x2E, 0xE5, 0x6A, 0x02, 0x00] ++ [0x00, 0x00] ++ [0, 0, 0, 0] ++
  [0x02, 0x01, 0x41] ++ [0, 0, 0, 0] ++
  [0x02, 0x01, 0x00, 0x00, 0x06, 0x02, 0x01, 0x02, 0x02, 0x0C, 0x03] ++
  [0, 0, 0, 0] ++ be64bytes 19

/-- The chunk `c7okbuf` decodes to. -/
def c7okchunk : LokiChunk :=
  ⟨Encoding.encNone,
   [⟨1, 0, 0, 6, 2, [0x00, 0x00], [⟨0, []⟩], 2, 0, crc32c [0x00, 0x00]⟩,
    ⟨1, 1, 1, 12, 3, [0x02, 0x01, 0x41], [⟨1, [0x41]⟩], 3, 0,
     crc32c [0x02, 0x01, 0x41]⟩],
   0, crc32c [0x02, 0x01, 0x00, 0x00, 0x06, 0x02, 0x01, 0x02, 0x02, 0x0C, 0x03]⟩

/-- Metadata of the C8 body: the descriptor declares 5 entries while the
payload holds 2. -/
def c8meta : List Nat :=
  [0x01, 0x05, 0xD0, 0x0F, 0xA0, 0x1F, 0x06, 0x09]

/-- Body whose single descriptor declares 5 entries over a 2-entry payload. -/
def c8buf : List Nat :=
  [0x01, 0x2E, 0xE5, 0x6A, 0x02, 0x00] ++ c2payload ++ c8meta ++
  be32bytes (crc32c c8meta) ++ be64bytes 15

/-- The chunk `c8buf` decodes to: declared count 5, two decoded entries. -/
def c8chunk : LokiChunk :=
  ⟨Encoding.encNone,
   [⟨5, 1000, 2000, 6, 9, c2payload,
     [⟨1000, [0x61]⟩, ⟨2000, [0x62, 0x62]⟩], 9, 0x0105D00F, crc32c c2payload⟩],
   crc32c c8meta, crc32c c8meta⟩

/-- Single-block body whose only (hence final) block payload `[0x80]` is a
malformed varint. -/
def c10buf : List Nat :=
  [0x01, 0x2E, 0xE5, 0x6A, 0x02, 0x00] ++ [0x80] ++ [0, 0, 0, 0] ++
  [0x01, 0x01, 0x00, 0x00, 0x06, 0x01] ++ [0, 0, 0, 0] ++ be64bytes 11

/-- The chunk `c10buf` decodes to: the failing final block is kept with no
entries and decompressed length 0. -/
def c10chunk : LokiChunk :=
  ⟨Encoding.encNone,
   [⟨1, 0, 0, 6, 1, [0x80], [], 0, 0, crc32c [0x80]⟩],
   0, crc32c [0x01, 0x01, 0x00, 0x00, 0x06, 0x01]⟩

/-- A 20-byte buffer with distinct leading bytes and trailing metadata
offset 2, used to compare the two candidate metadata-region bounds. -/
def c6buf : List Nat :=
  [10, 11, 12, 13, 14, 15, 16, 17, 18, 19, 20, 21, 0, 0, 0, 0, 0, 0, 0, 2]

/-- A 4-byte body whose magic is wrong. -/
def c9badmagic : List Nat :=
  [0xFF, 0x00, 0x00, 0x00]

/-- A 6-byte body with correct magic and codec but no room for the
trailer. -/
def c9short : List Nat :=
  [0x01, 0x2E, 0xE5, 0x6A, 0x02, 0x00]

/-- A value below `2 ^ s` occupies disjoint bits from anything shifted
left by `s`, so their bitwise or is addition. -/
theorem lor_shift {a b s : Nat} (h : a < 2 ^ s) : a ||| b <<< s = a + b * 2 ^ s := by
  rw [Nat.shiftLeft_eq, Nat.lor_comm, mul_comm b (2 ^ s), ← Nat.mul_add_lt_is_or h b]
  omega

/-- `binary.Uvarint` inverts `binary.PutUvarint` from any loop state. -/
theorem uvarintAux_encode (x : Nat) : ∀ (i acc : Nat) (rest : List Nat),
    x < 2 ^ (64 - 7 * i) → acc < 2 ^ (7 * i) → i ≤ 9 →
    uvarintAux (putUvarint x ++ rest) i (7 * i) acc =
      some (acc + x * 2 ^ (7 * i), i + (putUvarint x).length) := by
  induction x using Nat.strong_induction_on with
  | _ x ih =>
    intro i acc rest hx hacc hi
    rw [putUvarint]
    by_cases hsm : x < 0x80
    · simp only [if_pos hsm, List.singleton_append, List.length_singleton]
      unfold uvarintAux
      have hi10 : ¬ i = 10 := by omega
      have h9 : ¬ (i = 9 ∧ 1 < x) := by
        rintro ⟨h9, hx1⟩
        subst h9
        norm_num at hx
        omega
      rw [if_neg hi10, if_pos hsm, if_neg h9]
      have hlt : acc + x * 2 ^ (7 * i) < U64 := by
        have h1 : acc + x * 2 ^ (7 * i) < (x + 1) * 2 ^ (7 * i) := by
          nlinarith [Nat.pos_pow_of_pos (7 * i) (show 0 < 2 by omega)]
        have h2 : (x + 1) * 2 ^ (7 * i) ≤ 2 ^ (64 - 7 * i) * 2 ^ (7 * i) := by
          apply Nat.mul_le_mul_right
          omega
        have h3 : 2 ^ (64 - 7 * i) * 2 ^ (7 * i) = 2 ^ 64 := by
          rw [← pow_add]
          congr 1
          omega
        unfold U64
        omega
      rw [lor_shift hacc, Nat.mod_eq_of_lt hlt]
    · simp only [if_neg hsm, List.cons_append, List.length_cons]
      unfold uvarintAux
      have hb : ¬ (x % 0x80 + 0x80 < 0x80) := by omega
      have hi8 : i ≤ 8 := by
        by_contra hgt
        have : i = 9 := by omega
        subst this
        norm_num at hx
        omega
      have hi10 : ¬ i = 10 := by omega
      rw [if_neg hi10, if_neg hb]
      have hmask : (x % 0x80 + 0x80) &&& 0x7F = x % 0x80 := by
        rw [show (0x7F : Nat) = 2 ^ 7 - 1 from rfl, Nat.and_pow_two_sub_one_eq_mod]
        omega
      rw [hmask]
      have haccb : acc + x % 0x80 * 2 ^ (7 * i) < 2 ^ (7 * (i + 1)) := by
        have e1 : 7 * (i + 1) = 7 * i + 7 := by ring
        rw [e1, pow_add]
        have : x % 0x80 ≤ 0x7F := by omega
        nlinarith [Nat.pos_pow_of_pos (7 * i) (show 0 < 2 by omega)]
      have hmod : (acc ||| (x % 0x80) <<< (7 * i)) % U64 = acc + x % 0x80 * 2 ^ (7 * i) := by
        rw [lor_shift hacc]
        apply Nat.mod_eq_of_lt
        have h2 : (2 : Nat) ^ (7 * (i + 1)) ≤ 2 ^ 64 := by
          apply Nat.pow_le_pow_right
          omega
          omega
        unfold U64
        omega
      rw [hmod]
      have hs7 : 7 * i + 7 = 7 * (i + 1) := by ring
      rw [hs7]
      have hxd : x / 0x80 < x := Nat.div_lt_self (by omega) (by omega)
      have hx' : x / 0x80 < 2 ^ (64 - 7 * (i + 1)) := by
        rw [Nat.div_lt_iff_lt_mul (by omega : (0 : Nat) < 0x80)]
        have : (2 : Nat) ^ (64 - 7 * (i + 1)) * 0x80 = 2 ^ (64 - 7 * i) := by
          rw [show (0x80 : Nat) = 2 ^ 7 from rfl, ← pow_add]
          congr 1
          omega
        omega
      have := ih (x / 0x80) hxd (i + 1) (acc + x % 0x80 * 2 ^ (7 * i)) rest hx' haccb (by omega)
      rw [this]
      congr 1
      rw [Prod.mk.injEq]
      refine ⟨?_, by omega⟩
      have e1 : 7 * (i + 1) = 7 * i + 7 := by ring
      rw [e1, pow_add]
      have hdm := Nat.mod_add_div x 0x80
      calc acc + x % 0x80 * 2 ^ (7 * i) + x / 0x80 * (2 ^ (7 * i) * 2 ^ 7)
          = acc + (x % 0x80 + 0x80 * (x / 0x80)) * 2 ^ (7 * i) := by ring
        _ = acc + x * 2 ^ (7 * i) := by rw [hdm]

/-- `binary.Uvarint` inverts `binary.PutUvarint` for any `uint64`. -/
theorem uvarintGo_encode (x : Nat) (rest : List Nat) (hx : x < U64) :
    uvarintGo (putUvarint x ++ rest) = some (x, (putUvarint x).length) := by
  have := uvarintAux_encode x 0 0 rest (by simpa [U64] using hx) (by norm_num) (by omega)
  simpa [uvarintGo] using this

/-- The zig-zag image of an `int64` fits a `uint64`. -/
theorem zigzag_lt (t : Int) (h1 : -(2 ^ 63) ≤ t) (h2 : t < 2 ^ 63) : zigzag t < U64 := by
  unfold zigzag U64
  split <;> omega

/-- Zig-zag decoding inverts zig-zag encoding. -/
theorem unzigzag_zigzag (t : Int) : unzigzag (zigzag t) = t := by
  unfold zigzag unzigzag
  by_cases h : t < 0
  · rw [if_pos h]
    have h1 : 1 ≤ t.natAbs := by omega
    have hodd : (2 * t.natAbs - 1) % 2 = 1 := by omega
    rw [if_pos hodd]
    have : (2 * t.natAbs - 1) / 2 = t.natAbs - 1 := by omega
    rw [this]
    omega
  · rw [if_neg h]
    have heven : 2 * t.toNat % 2 = 0 := by omega
    rw [if_neg (by omega : ¬ 2 * t.toNat % 2 = 1)]
    have : 2 * t.toNat / 2 = t.toNat := by omega
    rw [this]
    omega

/-- `binary.Varint` inverts `binary.PutVarint` for any `int64`. -/
theorem varintGo_encode (t : Int) (rest : List Nat)
    (h1 : -(2 ^ 63) ≤ t) (h2 : t < 2 ^ 63) :
    varintGo (putVarint t ++ rest) = some (t, (putVarint t).length) := by
  unfold putVarint varintGo
  rw [uvarintGo_encode (zigzag t) rest (zigzag_lt t h1 h2)]
  simp [unzigzag_zigzag]

/-- `binary.Uvarint` only produces `uint64` values. -/
theorem uvarintAux_lt {buf : List Nat} {i s x v n : Nat}
    (h : uvarintAux buf i s x = some (v, n)) : v < U64 := by
  induction buf generalizing i s x with
  | nil => simp [uvarintAux] at h
  | cons b bs ih =>
    unfold uvarintAux at h
    split at h
    · exact absurd h (by simp)
    · split at h
      · split at h
        · exact absurd h (by simp)
        · simp at h
          have hv := h.1
          have hp : (0 : Nat) < U64 := by norm_num [U64]
          have := Nat.mod_lt (x ||| b <<< s) hp
          omega
      · exact ih h

/-- `uvarintGo` only produces `uint64` values. -/
theorem uvarintGo_lt {buf : List Nat} {v n : Nat}
    (h : uvarintGo buf = some (v, n)) : v < U64 :=
  uvarintAux_lt h

/-- A buffer of length 0 yields no entries, at any fuel. -/
theorem readEntriesF_zero_len {fuel : Nat} {buf : List Nat} (hb : buf.length = 0) :
    readEntriesF fuel buf = .ok [] := by
  cases fuel <;> simp [readEntriesF, hb]

/-- Entry-loop step when the timestamp varint is malformed. -/
theorem readEntriesF_step_vnone {fuel : Nat} {buf : List Nat}
    (hb : ¬ buf.length = 0) (hv : varintGo buf = Option.none) :
    readEntriesF (fuel + 1) buf = .err .varintErr := by
  simp only [readEntriesF, if_neg hb, hv]

/-- Entry-loop step when the line-length varint is malformed. -/
theorem readEntriesF_step_unone {fuel : Nat} {buf : List Nat} {ts : Int} {n1 : Nat}
    (hb : ¬ buf.length = 0) (hv : varintGo buf = some (ts, n1))
    (hu : uvarintGo (buf.drop n1) = Option.none) :
    readEntriesF (fuel + 1) buf = .err .varintErr := by
  simp only [readEntriesF, if_neg hb, hv, hu]

/-- Entry-loop step with both varints decoded. -/
theorem readEntriesF_step {fuel : Nat} {buf : List Nat} {ts : Int} {n1 ll n2 : Nat}
    (hb : ¬ buf.length = 0) (hv : varintGo buf = some (ts, n1))
    (hu : uvarintGo (buf.drop n1) = some (ll, n2)) :
    readEntriesF (fuel + 1) buf =
      if ll < U63 then
        if ((buf.drop n1).drop n2).length < ll then
          .err (.lineTooShort ll ((buf.drop n1).drop n2).length)
        else
          match readEntriesF fuel (((buf.drop n1).drop n2).drop ll) with
          | .oob => .oob
          | .err e => .err e
          | .ok es => .ok (⟨ts, ((buf.drop n1).drop n2).take ll⟩ :: es)
      else .oob := by
  simp only [readEntriesF, if_neg hb, hv, hu]

/-- The fuel argument is irrelevant above the buffer length, because each
iteration consumes at least the one byte of the timestamp varint. -/
theorem readEntriesF_congr : ∀ (f1 f2 : Nat) (buf : List Nat),
    buf.length < f1 → buf.length < f2 → readEntriesF f1 buf = readEntriesF f2 buf := by
  intro f1
  induction f1 with
  | zero => intro f2 buf h1 h2; exact absurd h1 (by omega)
  | succ f ih =>
    intro f2 buf h1 h2
    cases f2 with
    | zero => exact absurd h2 (by omega)
    | succ g =>
      by_cases hb : buf.length = 0
      · rw [readEntriesF_zero_len hb, readEntriesF_zero_len hb]
      · cases hv : varintGo buf with
        | none => rw [readEntriesF_step_vnone hb hv, readEntriesF_step_vnone hb hv]
        | some p =>
          obtain ⟨ts, n1⟩ := p
          cases hu : uvarintGo (buf.drop n1) with
          | none => rw [readEntriesF_step_unone hb hv hu, readEntriesF_step_unone hb hv hu]
          | some q =>
            obtain ⟨ll, n2⟩ := q
            rw [readEntriesF_step hb hv hu, readEntriesF_step hb hv hu]
            by_cases hll : ll < U63
            · simp only [if_pos hll]
              by_cases hshort : ((buf.drop n1).drop n2).length < ll
              · simp only [if_pos hshort]
              · simp only [if_neg hshort]
                have hn1 := varintGo_consumes hv
                have hrec := ih g (((buf.drop n1).drop n2).drop ll)
                  (by simp only [List.length_drop]; omega)
                  (by simp only [List.length_drop]; omega)
                rw [hrec]
            · simp only [if_neg hll]

/-- `readEntries` reads its fuel off the buffer. -/
theorem readEntries_eqF (buf : List Nat) :
    readEntries buf = readEntriesF (buf.length + 1) buf :=
  rfl

/-- A varint encoding is never empty. -/
theorem putUvarint_length_pos (x : Nat) : 1 ≤ (putUvarint x).length := by
  rw [putUvarint]
  split <;> simp

/-- Decoding an encoded entry in front of any suffix yields that entry and
continues with the suffix. -/
theorem readEntries_cons (e : LokiEntry) (rest : List Nat) (hf : entryFits e) :
    readEntries (encodeEntry e ++ rest) =
      match readEntries rest with
      | .oob => .oob
      | .err er => .err er
      | .ok es => .ok (e :: es) := by
  obtain ⟨hts1, hts2, hll⟩ := hf
  have hvar := varintGo_encode e.timestamp (putUvarint e.line.length ++ (e.line ++ rest)) hts1 hts2
  have huv := uvarintGo_encode e.line.length (e.line ++ rest)
    (by unfold U63 at hll; unfold U64; omega)
  have hbuf : encodeEntry e ++ rest =
      putVarint e.timestamp ++ (putUvarint e.line.length ++ (e.line ++ rest)) := by
    simp [encodeEntry, List.append_assoc]
  have hne : ¬ (putVarint e.timestamp ++ (putUvarint e.line.length ++ (e.line ++ rest))).length = 0 := by
    have h1 := putUvarint_length_pos (zigzag e.timestamp)
    simp only [putVarint, List.length_append]
    omega
  rw [hbuf, readEntries_eqF, readEntriesF_step hne hvar (by rw [List.drop_left]; exact huv)]
  rw [if_pos hll]
  rw [List.drop_left]
  rw [List.drop_left]
  rw [if_neg (by rw [List.length_append]; omega)]
  rw [List.drop_left, List.take_left]
  rw [readEntriesF_congr _ (rest.length + 1) rest
    (by
      have h1 := putUvarint_length_pos (zigzag e.timestamp)
      simp only [putVarint, List.length_append]
      omega)
    (by omega)]
  rw [← readEntries_eqF]

/-- The empty buffer decodes to no entries. -/
theorem readEntries_nil : readEntries [] = .ok [] := by
  rw [readEntries_eqF]
  exact readEntriesF_zero_len rfl

/-- Decoding encoded entries in front of any suffix yields those entries
followed by whatever the suffix decodes to. -/
theorem readEntries_encode_append (es : List LokiEntry) (suffix : List Nat)
    (hf : ∀ x ∈ es, entryFits x) :
    readEntries (encodeEntries es ++ suffix) =
      match readEntries suffix with
      | .oob => .oob
      | .err er => .err er
      | .ok tl => .ok (es ++ tl) := by
  induction es with
  | nil =>
    simp only [encodeEntries, List.map_nil, List.flatten_nil, List.nil_append]
    cases hr : readEntries suffix <;> simp
  | cons e es ih =>
    have hfe : entryFits e := hf e (by simp)
    have hbuf : encodeEntries (e :: es) ++ suffix =
        encodeEntry e ++ (encodeEntries es ++ suffix) := by
      simp [encodeEntries, List.append_assoc]
    rw [hbuf, readEntries_cons e _ hfe, ih (fun x hx => hf x (by simp [hx]))]
    cases hr : readEntries suffix <;> simp

/-- Round trip: the concatenated encodings of any entry list decode back
to exactly that list. -/
theorem readEntries_encode (es : List LokiEntry) (hf : ∀ x ∈ es, entryFits x) :
    readEntries (encodeEntries es) = .ok es := by
  have := readEntries_encode_append es [] hf
  simpa [readEntries_nil] using this

/-- Decoding one encoded entry whose line lost its last byte fails with
the not-enough-line-data error. -/
theorem readEntries_trunc_tail (e : LokiEntry) (hfe : entryFits e) (hline : e.line ≠ []) :
    readEntries (putVarint e.timestamp ++ (putUvarint e.line.length ++ e.line.dropLast)) =
      .err (.lineTooShort e.line.length (e.line.length - 1)) := by
  obtain ⟨hts1, hts2, hll⟩ := hfe
  have hvar := varintGo_encode e.timestamp (putUvarint e.line.length ++ e.line.dropLast) hts1 hts2
  have huv := uvarintGo_encode e.line.length e.line.dropLast
    (by unfold U63 at hll; unfold U64; omega)
  have hlen1 : 1 ≤ e.line.length := by
    cases hl : e.line with
    | nil => exact absurd hl hline
    | cons a l => simp [hl]
  have hne : ¬ (putVarint e.timestamp ++ (putUvarint e.line.length ++ e.line.dropLast)).length = 0 := by
    have h1 := putUvarint_length_pos (zigzag e.timestamp)
    simp only [putVarint, List.length_append]
    omega
  rw [readEntries_eqF, readEntriesF_step hne hvar (by rw [List.drop_left]; exact huv)]
  rw [if_pos hll]
  rw [List.drop_left]
  rw [List.drop_left]
  rw [if_pos (by rw [List.length_dropLast]; omega)]
  rw [List.length_dropLast]

/-- Truncating the final line of an encoded entry sequence by one byte
fails with the not-enough-line-data error. -/
theorem readEntries_encode_trunc (es : List LokiEntry) (e : LokiEntry)
    (hf : ∀ x ∈ es, entryFits x) (hfe : entryFits e) (hline : e.line ≠ []) :
    readEntries ((encodeEntries (es ++ [e])).dropLast) =
      .err (.lineTooShort e.line.length (e.line.length - 1)) := by
  have henc : encodeEntries (es ++ [e]) = encodeEntries es ++ encodeEntry e := by
    simp [encodeEntries]
  have hee : encodeEntry e =
      putVarint e.timestamp ++ (putUvarint e.line.length ++ e.line) := by
    simp [encodeEntry, List.append_assoc]
  have hne2 : putUvarint e.line.length ++ e.line ≠ [] := by
    apply List.ne_nil_of_length_pos
    have h1 := putUvarint_length_pos e.line.length
    rw [List.length_append]
    omega
  have hstep1 : putVarint e.timestamp ++ (putUvarint e.line.length ++ e.line) ≠ [] := by
    intro hc
    exact hne2 (List.append_eq_nil.mp hc).2
  have hdrop : (encodeEntries (es ++ [e])).dropLast =
      encodeEntries es ++ (putVarint e.timestamp ++
        (putUvarint e.line.length ++ e.line.dropLast)) := by
    rw [henc, hee,
        List.dropLast_append_of_ne_nil _ hstep1,
        List.dropLast_append_of_ne_nil _ hne2,
        List.dropLast_append_of_ne_nil _ hline]
  rw [hdrop, readEntries_encode_append es _ hf, readEntries_trunc_tail e hfe hline]

theorem readUvarintE_err {buf : List Nat} {e : Err} (h : readUvarintE buf = .error e) :
    e = .varintErr := by
  unfold readUvarintE at h
  split at h
  · injection h with h; exact h.symm
  · simp at h

theorem readVarintE_err {buf : List Nat} {e : Err} (h : readVarintE buf = .error e) :
    e = .varintErr := by
  unfold readVarintE at h
  split at h
  · injection h with h; exact h.symm
  · simp at h

theorem decodeDescriptor_err {meta : List Nat} {e : Err}
    (h : decodeDescriptor meta = .error e) : e = .varintErr := by
  unfold decodeDescriptor at h
  split at h
  next e1 h1 => injection h with h; subst h; exact readUvarintE_err h1
  next h1 =>
  split at h
  next e1 h2 => injection h with h; subst h; exact readVarintE_err h2
  next h2 =>
  split at h
  next e1 h3 => injection h with h; subst h; exact readVarintE_err h3
  next h3 =>
  split at h
  next e1 h4 => injection h with h; subst h; exact readUvarintE_err h4
  next h4 =>
  split at h
  next e1 h5 => injection h with h; subst h; exact readUvarintE_err h5
  next h5 => simp at h

theorem readUvarintE_ok_lt {buf rest : List Nat} {v : Nat}
    (h : readUvarintE buf = .ok (v, rest)) : v < U64 := by
  unfold readUvarintE at h
  split at h
  · simp at h
  next v2 n2 hu =>
    injection h with h
    have h1 : v2 = v := by
      have := congrArg Prod.fst h
      simpa using this
    subst h1
    exact uvarintGo_lt hu

theorem decodeDescriptor_bounds {meta meta' : List Nat} {d : LokiBlockDesc}
    (h : decodeDescriptor meta = .ok (d, meta')) :
    d.dataOffset < U64 ∧ d.dataLength < U64 := by
  unfold decodeDescriptor at h
  split at h
  · simp at h
  next ne m1 h1 =>
  split at h
  · simp at h
  next mnT m2 h2 =>
  split at h
  · simp at h
  next mxT m3 h3 =>
  split at h
  · simp at h
  next off m4 h4 =>
  split at h
  · simp at h
  next len m5 h5 =>
  injection h with h
  have hd : d = ⟨ne, mnT, mxT, off, len⟩ := by
    have := congrArg Prod.fst h
    simpa using this.symm
  subst hd
  exact ⟨readUvarintE_ok_lt h4, readUvarintE_ok_lt h5⟩

theorem slice_checks {d : LokiBlockDesc} {L : Nat} (hlen : d.dataLength < U64)
    (h1 : ¬ (blockSliceHi d < d.dataOffset ∨ L < blockSliceHi d))
    (h2 : ¬ ((blockSliceHi d + 4) % U64 < blockSliceHi d ∨
      L < (blockSliceHi d + 4) % U64)) :
    blockSliceHi d = d.dataOffset + d.dataLength ∧
    (blockSliceHi d + 4) % U64 = d.dataOffset + d.dataLength + 4 ∧
    d.dataOffset + d.dataLength + 4 ≤ L := by
  unfold blockSliceHi at *
  unfold U64 at *
  push_neg at h1 h2
  omega

theorem readEntriesF_err : ∀ (fuel : Nat) (buf : List Nat) (e : Err),
    readEntriesF fuel buf = .err e →
    e = .varintErr ∨ ∃ a b, e = .lineTooShort a b := by
  intro fuel
  induction fuel with
  | zero =>
    intro buf e h
    unfold readEntriesF at h
    split at h <;> simp at h
  | succ f ih =>
    intro buf e h
    unfold readEntriesF at h
    split at h
    · simp at h
    next hb =>
    split at h
    · injection h with h; exact Or.inl h.symm
    next ts n1 hv =>
    split at h
    · injection h with h; exact Or.inl h.symm
    next ll n2 hu =>
    split at h
    next hll =>
      split at h
      next hshort => injection h with h; exact Or.inr ⟨ll, _, h.symm⟩
      next hshort =>
        split at h
        · simp at h
        next e2 hrec => injection h with h; subst h; exact ih _ _ hrec
        · simp at h
    next hll => simp at h

theorem readEntries_err {buf : List Nat} {e : Err} (h : readEntries buf = .err e) :
    e = .varintErr ∨ ∃ a b, e = .lineTooShort a b :=
  readEntriesF_err _ _ _ h

theorem parseLokiBlockE_err {ext : ExtCodec} {enc : Encoding} {data : List Nat} {e : Err}
    (h : parseLokiBlockE ext enc data = .err e) : entryLevelErr e := by
  unfold parseLokiBlockE at h
  split at h
  · injection h with h
    exact Or.inr (Or.inl h.symm)
  next dec hdec =>
    split at h
    · simp at h
    next e2 hre =>
      injection h with h
      subst h
      rcases readEntries_err hre with h1 | h1
      · exact Or.inl h1
      · exact Or.inr (Or.inr h1)
    · simp at h

theorem chunkLoop_err_class {ext : ExtCodec} {enc : Encoding} {data : List Nat} :
    ∀ (r : Nat) (meta : List Nat) (pending : Option Err) (acc : List LokiBlock) (e : Err),
    (∀ e', pending = some e' → entryLevelErr e') →
    chunkLoop ext enc data r meta pending acc = .err e → entryLevelErr e := by
  intro r
  induction r with
  | zero =>
    intro meta pending acc e hp h
    unfold chunkLoop at h
    simp at h
  | succ r ih =>
    intro meta pending acc e hp h
    unfold chunkLoop at h
    split at h
    next e1 =>
      injection h with h
      subst h
      exact hp e1 rfl
    split at h
    next e1 hdesc =>
      injection h with h
      subst h
      exact Or.inl (decodeDescriptor_err hdesc)
    next d meta' hdesc =>
    split at h
    · simp at h
    next hsl1 =>
    split at h
    · simp at h
    next hsl2 =>
    split at h
    · simp at h
    next e1 hbp =>
      exact ih _ _ _ _ (fun e' he' => by
        injection he' with he'
        subst he'
        exact parseLokiBlockE_err hbp) h
    next ulen es hbp =>
      exact ih _ _ _ _ (fun e' he' => by simp at he') h

theorem chunkLoop_ok_wf {ext : ExtCodec} {enc : Encoding} {data : List Nat} :
    ∀ (r : Nat) (meta : List Nat) (pending : Option Err) (acc bs : List LokiBlock),
    chunkLoop ext enc data r meta pending acc = .ok bs →
    (∀ b ∈ acc, blockWF ext enc data b) → ∀ b ∈ bs, blockWF ext enc data b := by
  intro r
  induction r with
  | zero =>
    intro meta pending acc bs h hacc
    unfold chunkLoop at h
    injection h with h
    subst h
    exact hacc
  | succ r ih =>
    intro meta pending acc bs h hacc
    unfold chunkLoop at h
    split at h
    · simp at h
    split at h
    · simp at h
    next d meta' hdesc =>
    split at h
    · simp at h
    next hsl1 =>
    split at h
    · simp at h
    next hsl2 =>
    have hdb := decodeDescriptor_bounds hdesc
    obtain ⟨hhi, hhi2, hle⟩ := slice_checks hdb.2 hsl1 hsl2
    split at h
    · simp at h
    next e1 hbp =>
      refine ih _ _ _ _ h (fun b hb => ?_)
      rcases List.mem_append.mp hb with hmem | hmem
      · exact hacc b hmem
      · have hbeq : b = mkBlock d (blockRaw data d) (blockStored data d)
            (crc32c (blockRaw data d)) 0 [] := by simpa using hmem
        subst hbeq
        refine ⟨by simpa [mkBlock] using hle, ?_, ?_, rfl, ?_⟩
        · show blockRaw data d = sliceGo data d.dataOffset (d.dataOffset + d.dataLength)
          rw [blockRaw, hhi]
        · show blockStored data d = be32 (sliceGo data (d.dataOffset + d.dataLength)
            (d.dataOffset + d.dataLength + 4))
          rw [blockStored, hhi2, hhi]
        · show ((0 : Nat), ([] : List LokiEntry)) = blockOutcome ext enc (blockRaw data d)
          unfold blockOutcome
          rw [hbp]
    next ulen es hbp =>
      refine ih _ _ _ _ h (fun b hb => ?_)
      rcases List.mem_append.mp hb with hmem | hmem
      · exact hacc b hmem
      · have hbeq : b = mkBlock d (blockRaw data d) (blockStored data d)
            (crc32c (blockRaw data d)) ulen es := by simpa using hmem
        subst hbeq
        refine ⟨by simpa [mkBlock] using hle, ?_, ?_, rfl, ?_⟩
        · show blockRaw data d = sliceGo data d.dataOffset (d.dataOffset + d.dataLength)
          rw [blockRaw, hhi]
        · show blockStored data d = be32 (sliceGo data (d.dataOffset + d.dataLength)
            (d.dataOffset + d.dataLength + 4))
          rw [blockStored, hhi2, hhi]
        · show (ulen, es) = blockOutcome ext enc (blockRaw data d)
          unfold blockOutcome
          rw [hbp]

theorem chunkLoop_ok_dir {ext : ExtCodec} {enc : Encoding} {data : List Nat} :
    ∀ (r : Nat) (meta : List Nat) (pending : Option Err) (acc bs : List LokiBlock),
    pending = Option.none →
    chunkLoop ext enc data r meta pending acc = .ok bs →
    ∃ ds rest, decodeDirectory r meta = .ok (ds, rest) ∧
      bs.map LokiBlock.toDesc = acc.map LokiBlock.toDesc ++ ds ∧
      bs.length = acc.length + r := by
  intro r
  induction r with
  | zero =>
    intro meta pending acc bs hp h
    unfold chunkLoop at h
    injection h with h
    subst h
    exact ⟨[], meta, rfl, by simp, by simp⟩
  | succ r ih =>
    intro meta pending acc bs hp h
    subst hp
    unfold chunkLoop at h
    split at h
    next e1 => simp at h
    split at h
    · simp at h
    next d meta' hdesc =>
    split at h
    · simp at h
    next hsl1 =>
    split at h
    · simp at h
    next hsl2 =>
    split at h
    · simp at h
    next e1 hbp =>
      cases r with
      | zero =>
        unfold chunkLoop at h
        injection h with h
        subst h
        refine ⟨[d], meta', ?_, ?_, ?_⟩
        · unfold decodeDirectory
          rw [hdesc]
          rfl
        · simp [mkBlock, LokiBlock.toDesc]
        · simp
      | succ r2 =>
        unfold chunkLoop at h
        simp at h
    next ulen es hbp =>
      obtain ⟨ds, rest, hdir, hmap, hlen⟩ := ih _ _ _ _ rfl h
      refine ⟨d :: ds, rest, ?_, ?_, ?_⟩
      · unfold decodeDirectory
        simp only [hdesc, hdir]
      · rw [hmap]
        simp [mkBlock, LokiBlock.toDesc]
      · rw [hlen]
        simp
        omega

theorem chunkLoop_ok_nonfinal {ext : ExtCodec} {enc : Encoding} {data : List Nat} :
    ∀ (r : Nat) (meta : List Nat) (pending : Option Err) (acc bs : List LokiBlock),
    pending = Option.none →
    chunkLoop ext enc data r meta pending acc = .ok bs →
    (∀ j, j < acc.length →
      parseLokiBlockE ext enc ((acc.getD j dummyBlock).rawData) =
        .ok ((acc.getD j dummyBlock).uncompressedLength, (acc.getD j dummyBlock).entries)) →
    ∀ j, j + 1 < bs.length →
      parseLokiBlockE ext enc ((bs.getD j dummyBlock).rawData) =
        .ok ((bs.getD j dummyBlock).uncompressedLength, (bs.getD j dummyBlock).entries) := by
  intro r
  induction r with
  | zero =>
    intro meta pending acc bs hp h hacc j hj
    unfold chunkLoop at h
    injection h with h
    subst h
    exact hacc j (by omega)
  | succ r ih =>
    intro meta pending acc bs hp h hacc j hj
    subst hp
    unfold chunkLoop at h
    split at h
    next e1 => simp at h
    split at h
    · simp at h
    next d meta' hdesc =>
    split at h
    · simp at h
    next hsl1 =>
    split at h
    · simp at h
    next hsl2 =>
    split at h
    · simp at h
    next e1 hbp =>
      cases r with
      | zero =>
        unfold chunkLoop at h
        injection h with h
        subst h
        rw [List.length_append, List.length_singleton] at hj
        have hjlt : j < acc.length := by omega
        rw [List.getD_append _ _ _ _ hjlt]
        exact hacc j hjlt
      | succ r2 =>
        unfold chunkLoop at h
        simp at h
    next ulen es hbp =>
      refine ih _ _ _ _ rfl h (fun i hi => ?_) j hj
      rw [List.length_append, List.length_singleton] at hi
      by_cases hcase : i < acc.length
      · rw [List.getD_append _ _ _ _ hcase]
        exact hacc i hcase
      · have hieq : i = acc.length := by omega
        subst hieq
        rw [List.getD_append_right _ _ _ _ (by omega)]
        simp [mkBlock]
        exact hbp

/-- Inversion of a successful `parseLokiChunk`: every guard passed, the
checksums are the recorded expressions, and the blocks come from the
descriptor loop run on the metadata region past the block count. -/
theorem parseLokiChunk_ok_inv {ext : ExtCodec} {data : List Nat} {ch : LokiChunk}
    (h : parseLokiChunk ext data = .ok ch) :
    4 ≤ data.length ∧ be32 (data.take 4) = MAGIC ∧ 6 ≤ data.length ∧
    getCompression (data.getD 4 0) (data.getD 5 0) = .ok ch.encoding ∧
    12 ≤ data.length ∧ metasOffsetOf data ≤ data.length - 12 ∧
    ch.metadataChecksum = be32 (sliceGo data (data.length - 12) (data.length - 8)) ∧
    ch.computedMetadataChecksum = crc32c (metaRegionV2 data) ∧
    ∃ N n, uvarintGo (metaRegionV2 data) = some (N, n) ∧
      chunkLoop ext ch.encoding data (goIntLoopBound N) ((metaRegionV2 data).drop n)
        Option.none [] = .ok ch.blocks := by
  unfold parseLokiChunk at h
  split at h
  · simp at h
  next hlen4 =>
  split at h
  · simp at h
  next hmag =>
  split at h
  · simp at h
  next hlen6 =>
  split at h
  next e heq => simp at h
  next compression heq =>
  split at h
  · simp at h
  next hlen8 =>
  split at h
  · simp at h
  next hlen12 =>
  split at h
  · simp at h
  next hmo =>
  split at h
  next hbc => simp at h
  next N n hbc =>
  split at h
  next hloop => simp at h
  next e2 hloop => simp at h
  next bs hloop =>
  injection h with h
  subst h
  refine ⟨by omega, by omega, by omega, heq, by omega, by omega, rfl, rfl, N, n, hbc, hloop⟩

/-- `getCompression` only fails with the unknown-encoding or
unknown-format errors. -/
theorem getCompression_err {f c : Nat} {e : Err} (h : getCompression f c = .error e) :
    e = .unknownEncoding c ∨ e = .unknownFormat f := by
  unfold getCompression at h
  split at h
  · simp at h
  · split at h
    · split at h
      · simp at h
      · injection h with h
        exact Or.inl h.symm
    · injection h with h
      exact Or.inr h.symm

/-- `sliceGo` agrees with the index-based spec slice whenever the upper
bound is within the buffer. -/
theorem sliceGo_eq_sliceSpec (data : List Nat) (lo hi : Nat) (h : hi ≤ data.length) :
    sliceGo data lo hi = sliceSpec data lo hi := by
  apply List.ext_getElem
  · simp [sliceGo, sliceSpec]
    omega
  · intro i h1 h2
    simp only [sliceGo, sliceSpec]
    have hb : lo + i < data.length := by
      simp [sliceGo] at h1
      omega
    rw [List.getElem_drop, List.getElem_take]
    rw [List.getElem_map, List.getElem_range]
    rw [List.getD_eq_getElem _ _ hb]

/-- Claim C2: for the concrete body made of the magic `0x012EE56A`, format
byte 2, code byte 0 (identity codec), the raw encodings of the entries
`(1000, "a")` and `(2000, "bb")`, a metadata region with block count 1 and
descriptor {count=2, minT=1000, maxT=2000, offset=6, length=9}, the CRC-32C
of the metadata region and the trailing 8-byte metadata offset,
`parseLokiChunk` succeeds with exactly one block holding exactly those two
entries, and the computed metadata checksum equals the stored one. -/
theorem claimC2 : parseLokiChunk extFail c2buf = .ok c2chunk := by
  decide

/-- Claim C3: decoding the concatenation of the encodings of any entry
list (signed-varint timestamp, unsigned-varint line length, raw line
bytes) with `parseLokiBlock` under the identity codec yields exactly those
entries, and dropping the last byte of the final (nonempty) line makes the
decode fail with the not-enough-line-data (truncated entry) error.  The
`entryFits` hypotheses state that each timestamp is an `int64` and each
line length converts to a nonnegative `int`, as the Go types require. -/
theorem claimC3 :
    (∀ (ext : ExtCodec) (es : List LokiEntry), (∀ x ∈ es, entryFits x) →
      parseLokiBlockE ext Encoding.encNone (encodeEntries es) =
        .ok ((encodeEntries es).length, es)) ∧
    (∀ (ext : ExtCodec) (es : List LokiEntry) (e : LokiEntry),
      (∀ x ∈ es, entryFits x) → entryFits e → e.line ≠ [] →
      parseLokiBlockE ext Encoding.encNone ((encodeEntries (es ++ [e])).dropLast) =
        .err (.lineTooShort e.line.length (e.line.length - 1))) := by
  constructor
  · intro ext es hf
    simp only [parseLokiBlockE, runCodec]
    rw [readEntries_encode es hf]
  · intro ext es e hf hfe hline
    simp only [parseLokiBlockE, runCodec]
    rw [readEntries_encode_trunc es e hf hfe hline]

/-- Witness for claim C3 at the concrete entries `(1000, "a")` and
`(2000, "bb")`. -/
theorem claimC3_witness :
    parseLokiBlockE extFail Encoding.encNone
        (encodeEntries [⟨1000, [97]⟩, ⟨2000, [98, 98]⟩]) =
      .ok ((encodeEntries [⟨1000, [97]⟩, ⟨2000, [98, 98]⟩]).length,
           [⟨1000, [97]⟩, ⟨2000, [98, 98]⟩]) ∧
    parseLokiBlockE extFail Encoding.encNone
        ((encodeEntries ([⟨1000, [97]⟩] ++ [⟨2000, [98, 98]⟩])).dropLast) =
      .err (.lineTooShort 2 1) :=
  ⟨claimC3.1 extFail _ (by decide), by
    have := claimC3.2 extFail [⟨1000, [97]⟩] ⟨2000, [98, 98]⟩ (by decide) (by decide)
      (by decide)
    simpa using this⟩

/-- Claim C6 (amended): in both source variants — checksum-aware and
legacy — the metadata region is the buffer slice [metaOffset, len-12),
where metaOffset is the big-endian unsigned integer read from the last 8
bytes of the body; the legacy variant does not use len-8. -/
theorem claimC6 : ∀ data : List Nat,
    metaRegionV2 data = sliceSpec data (metasOffsetOf data) (data.length - 12) ∧
    metaRegionLegacy data = sliceSpec data (metasOffsetOf data) (data.length - 12) := by
  intro data
  exact ⟨sliceGo_eq_sliceSpec data _ _ (by omega),
         sliceGo_eq_sliceSpec data _ _ (by omega)⟩

/-- Counterexample for claim C6 as stated: on a concrete legacy buffer the
metadata region computed by `parseLokiChunkLegacy` differs from the
claimed slice [metaOffset, len-8). -/
theorem claimC6_counterexample :
    metaRegionLegacy c6buf ≠ sliceSpec c6buf (metasOffsetOf c6buf) (c6buf.length - 8) := by
  decide

/-- Claim C5: for every body of at least 4 bytes whose leading big-endian
32-bit word differs from `0x012EE56A`, `parseLokiChunk` returns the
invalid-magic error (and, the error carrying no chunk, no partial chunk);
when the word equals the magic, no invalid-magic error can be returned. -/
theorem claimC5 : ∀ (ext : ExtCodec) (data : List Nat), 4 ≤ data.length →
    (be32 (data.take 4) ≠ MAGIC →
      parseLokiChunk ext data = .err (.invalidMagic (be32 (data.take 4)))) ∧
    (be32 (data.take 4) = MAGIC →
      ∀ k, parseLokiChunk ext data ≠ .err (.invalidMagic k)) := by
  intro ext data hlen
  constructor
  · intro hneq
    unfold parseLokiChunk
    rw [if_neg (by omega), if_pos hneq]
  · intro heq k hcontra
    unfold parseLokiChunk at hcontra
    rw [if_neg (by omega), if_neg (by simp [heq])] at hcontra
    split at hcontra
    · simp at hcontra
    split at hcontra
    next e hc =>
      injection hcontra with hh
      subst hh
      rcases getCompression_err hc with h1 | h1 <;> simp at h1
    next compression hc =>
    split at hcontra
    · simp at hcontra
    split at hcontra
    · simp at hcontra
    split at hcontra
    · simp at hcontra
    split at hcontra
    next hbc => simp at hcontra
    next N n hbc =>
    split at hcontra
    · simp at hcontra
    next e2 hloop =>
      injection hcontra with hh
      subst hh
      have := chunkLoop_err_class _ _ _ _ _ (fun e' he' => by simp at he') hloop
      simp [entryLevelErr] at this
    next bs hloop => simp at hcontra

/-- Witness for claim C5 at the all-zero 4-byte body. -/
theorem claimC5_witness :
    4 ≤ ([0, 0, 0, 0] : List Nat).length ∧
    parseLokiChunk extFail [0, 0, 0, 0] = .err (.invalidMagic 0) := by
  refine ⟨by decide, ?_⟩
  exact (claimC5 extFail [0, 0, 0, 0] (by decide)).1 (by decide)

/-- Claim C4: a checksum mismatch never causes an error: on every
successful parse both the stored and the computed CRC-32C values are
recorded, for the metadata region and for every block; and on a concrete
body whose stored metadata checksum and stored block checksum are both
wrong, the parse still succeeds with the mismatching pairs recorded and
the entries decoded unchanged (identical to the correct-checksum
scenario's entries). -/
theorem claimC4 :
    (∀ (ext : ExtCodec) (data : List Nat) (ch : LokiChunk),
      parseLokiChunk ext data = .ok ch →
      ch.metadataChecksum = be32 (sliceGo data (data.length - 12) (data.length - 8)) ∧
      ch.computedMetadataChecksum = crc32c (metaRegionV2 data) ∧
      ∀ b ∈ ch.blocks,
        b.storedChecksum = be32 (sliceGo data (b.dataOffset + b.dataLength)
          (b.dataOffset + b.dataLength + 4)) ∧
        b.computedChecksum = crc32c b.rawData) ∧
    parseLokiChunk extFail c4buf = .ok c4chunk ∧
    c4chunk.metadataChecksum ≠ c4chunk.computedMetadataChecksum ∧
    (c4chunk.blocks.getD 0 dummyBlock).storedChecksum ≠
      (c4chunk.blocks.getD 0 dummyBlock).computedChecksum ∧
    (c4chunk.blocks.getD 0 dummyBlock).entries =
      (c2chunk.blocks.getD 0 dummyBlock).entries := by
  refine ⟨?_, by decide, by decide, by decide, by decide⟩
  intro ext data ch h
  obtain ⟨_, _, _, _, _, _, hmc, hcc, N, n, hbc, hloop⟩ := parseLokiChunk_ok_inv h
  refine ⟨hmc, hcc, fun b hb => ?_⟩
  have hwf := chunkLoop_ok_wf _ _ _ _ _ hloop (by simp) b hb
  exact ⟨hwf.2.2.1, hwf.2.2.2.1⟩

/-- Witness for claim C4's universal part at the mismatching concrete
body. -/
theorem claimC4_witness :
    c4chunk.metadataChecksum =
      be32 (sliceGo c4buf (c4buf.length - 12) (c4buf.length - 8)) ∧
    c4chunk.computedMetadataChecksum = crc32c (metaRegionV2 c4buf) :=
  ⟨(claimC4.1 extFail c4buf c4chunk (by decide)).1,
   (claimC4.1 extFail c4buf c4chunk (by decide)).2.1⟩

/-- Claim C8: the entries of every block of a successfully parsed chunk
are a function of the chunk's codec and that block's payload bytes alone
(`blockOutcome`), so two descriptors locating the same payload but
declaring different entry counts yield identical entry sequences; and on a
concrete body a declared count of 5 coexists with 2 decoded entries
without any decode-time error. -/
theorem claimC8 :
    (∀ (ext : ExtCodec) (data : List Nat) (ch : LokiChunk),
      parseLokiChunk ext data = .ok ch →
      ∀ b ∈ ch.blocks,
        (b.uncompressedLength, b.entries) = blockOutcome ext ch.encoding b.rawData) ∧
    parseLokiChunk extFail c8buf = .ok c8chunk ∧
    (c8chunk.blocks.getD 0 dummyBlock).numEntries = 5 ∧
    ((c8chunk.blocks.getD 0 dummyBlock).entries).length = 2 := by
  refine ⟨?_, by decide, by decide, by decide⟩
  intro ext data ch h
  obtain ⟨_, _, _, _, _, _, _, _, N, n, hbc, hloop⟩ := parseLokiChunk_ok_inv h
  intro b hb
  exact (chunkLoop_ok_wf _ _ _ _ _ hloop (by simp) b hb).2.2.2.2

/-- Witness for claim C8's universal part at the concrete
count-divergent body. -/
theorem claimC8_witness :
    ((c8chunk.blocks.getD 0 dummyBlock).uncompressedLength,
     (c8chunk.blocks.getD 0 dummyBlock).entries) =
      blockOutcome extFail c8chunk.encoding
        ((c8chunk.blocks.getD 0 dummyBlock).rawData) := by
  have h := claimC8.1 extFail c8buf c8chunk (by decide)
  exact h _ (by decide)

/-- Claim C9 (amended): a successful parse requires `len ≥ 12`,
`metaOffset ≤ len-12` and `dataOffset+dataLength+4 ≤ len` for every block;
and an input that passes the magic and codec checks but violates the
trailer preconditions makes `parseLokiChunk` go out of bounds (a panic)
rather than return an error.  Inputs rejected by the earlier checks (bad
magic, unknown codec) return an error without reaching the unchecked
indexing, so the original claim's "every violating input is out of
bounds" is false. -/
theorem claimC9 :
    (∀ (ext : ExtCodec) (data : List Nat) (ch : LokiChunk),
      parseLokiChunk ext data = .ok ch →
      12 ≤ data.length ∧ metasOffsetOf data ≤ data.length - 12 ∧
      ∀ b ∈ ch.blocks, b.dataOffset + b.dataLength + 4 ≤ data.length) ∧
    (∀ (ext : ExtCodec) (data : List Nat),
      4 ≤ data.length → be32 (data.take 4) = MAGIC →
      (data.length < 6 ∨ ∃ c, getCompression (data.getD 4 0) (data.getD 5 0) = .ok c) →
      (data.length < 12 ∨ data.length - 12 < metasOffsetOf data) →
      parseLokiChunk ext data = .oob) := by
  constructor
  · intro ext data ch h
    obtain ⟨_, _, _, _, h12, hmo, _, _, N, n, hbc, hloop⟩ := parseLokiChunk_ok_inv h
    exact ⟨h12, hmo, fun b hb => (chunkLoop_ok_wf _ _ _ _ _ hloop (by simp) b hb).1⟩
  · intro ext data hlen hmag hcomp hviol
    unfold parseLokiChunk
    rw [if_neg (by omega), if_neg (by simp [hmag])]
    by_cases h6 : data.length < 6
    · rw [if_pos h6]
    · rw [if_neg h6]
      rcases hcomp with h | h
      · omega
      · obtain ⟨c, hc⟩ := h
        simp only [hc]
        by_cases h8 : data.length < 8
        · rw [if_pos h8]
        · rw [if_neg h8]
          by_cases h12 : data.length < 12
          · rw [if_pos h12]
          · rw [if_neg h12]
            rcases hviol with hv | hv
            · omega
            · rw [if_pos hv]

/-- Counterexample for claim C9 as stated: a 4-byte body violates
`len ≥ 12`, yet `parseLokiChunk` returns the bad-magic error, not an
out-of-bounds access. -/
theorem claimC9_counterexample :
    c9badmagic.length < 12 ∧
    parseLokiChunk extFail c9badmagic = .err (.invalidMagic 0xFF000000) :=
  ⟨by decide, by decide⟩

/-- Witness for claim C9: the 6-byte good-magic body panics, and the
successful concrete scenario satisfies the trailer preconditions. -/
theorem claimC9_witness :
    parseLokiChunk extFail c9short = .oob ∧
    12 ≤ c2buf.length ∧ metasOffsetOf c2buf ≤ c2buf.length - 12 := by
  refine ⟨?_, ?_, ?_⟩
  · exact claimC9.2 extFail c9short (by decide) (by decide)
      (Or.inr ⟨Encoding.encNone, rfl⟩) (Or.inl (by decide))
  · exact ((claimC9.1 extFail c2buf c2chunk (by decide)).1)
  · exact ((claimC9.1 extFail c2buf c2chunk (by decide)).2.1)

/-- Claim C1 (amended): on every successful parse the directory is the
decoded block count `N` followed by exactly `int64(N)`-many descriptors
decoded strictly in order — that is, exactly `N` descriptors when
`N < 2 ^ 63`, and none at all when `N ≥ 2 ^ 63`, because the loop bound
`int(blocks)` is then negative; a varint failure at a descriptor that is
actually decoded aborts the whole file (success implies the full directory
decoded, and failures return no chunk). -/
theorem claimC1 :
    ∀ (ext : ExtCodec) (data : List Nat) (ch : LokiChunk) (N n : Nat),
      parseLokiChunk ext data = .ok ch →
      uvarintGo (metaRegionV2 data) = some (N, n) →
      ch.blocks.length = goIntLoopBound N ∧
      dirDescs (goIntLoopBound N) ((metaRegionV2 data).drop n) =
        some (ch.blocks.map LokiBlock.toDesc) := by
  intro ext data ch N n h hbc
  obtain ⟨_, _, _, _, _, _, _, _, N', n', hbc', hloop⟩ := parseLokiChunk_ok_inv h
  rw [hbc] at hbc'
  injection hbc' with hp
  injection hp with h1 h2
  subst h1
  subst h2
  obtain ⟨ds, rest, hdir, hmap, hlen⟩ := chunkLoop_ok_dir _ _ _ _ _ rfl hloop
  constructor
  · rw [hlen]
    simp
  · unfold dirDescs
    rw [hdir]
    simp at hmap
    rw [hmap]

/-- Counterexample for claim C1 as stated: a directory declaring
`N = 2 ^ 63` blocks parses successfully with zero descriptors decoded
instead of failing or decoding `N` descriptors. -/
theorem claimC1_counterexample :
    parseLokiChunk extFail c1buf = .ok ⟨Encoding.encNone, [], 0, crc32c c1meta⟩ ∧
    uvarintGo (metaRegionV2 c1buf) = some (2 ^ 63, 10) :=
  ⟨by decide, by decide⟩

/-- Witness for claim C1 at the concrete scenario (N = 1). -/
theorem claimC1_witness :
    c2chunk.blocks.length = goIntLoopBound 1 ∧
    dirDescs (goIntLoopBound 1) ((metaRegionV2 c2buf).drop 1) =
      some (c2chunk.blocks.map LokiBlock.toDesc) :=
  claimC1 extFail c2buf c2chunk 1 1 (by decide) (by decide)

/-- Claim C7 (amended): a payload decompression or entry-decoding failure
in a non-final block aborts the whole file — equivalently, on every
successful parse every block except possibly the last one decoded
cleanly; only a failure in the final directory block is tolerated. -/
theorem claimC7 :
    ∀ (ext : ExtCodec) (data : List Nat) (ch : LokiChunk),
      parseLokiChunk ext data = .ok ch →
      ∀ j, j + 1 < ch.blocks.length →
        parseLokiBlockE ext ch.encoding ((ch.blocks.getD j dummyBlock).rawData) =
          .ok ((ch.blocks.getD j dummyBlock).uncompressedLength,
               (ch.blocks.getD j dummyBlock).entries) := by
  intro ext data ch h j hj
  obtain ⟨_, _, _, _, _, _, _, _, N, n, hbc, hloop⟩ := parseLokiChunk_ok_inv h
  exact chunkLoop_ok_nonfinal _ _ _ _ _ rfl hloop (by simp) j hj

/-- Counterexample for claim C7 as stated: a two-block body whose first
block's payload is a malformed varint makes `parseLokiChunk` fail for the
whole file instead of returning the other block. -/
theorem claimC7_counterexample :
    parseLokiChunk extFail c7buf = .err .varintErr := by
  decide

/-- Witness for claim C7 at a two-block body that parses successfully. -/
theorem claimC7_witness :
    parseLokiBlockE extFail c7okchunk.encoding
        ((c7okchunk.blocks.getD 0 dummyBlock).rawData) =
      .ok ((c7okchunk.blocks.getD 0 dummyBlock).uncompressedLength,
           (c7okchunk.blocks.getD 0 dummyBlock).entries) :=
  claimC7 extFail c7okbuf c7okchunk (by decide) 0 (by decide)

/-- Claim C10: when the final loop iteration's block fails to decode, the
error is discarded: the loop returns success with that block appended
carrying no entries and decompressed length 0; concretely, a single-block
body with a malformed payload parses successfully with such a block. -/
theorem claimC10 :
    (∀ (ext : ExtCodec) (enc : Encoding) (data meta meta' : List Nat)
       (acc : List LokiBlock) (d : LokiBlockDesc) (e : Err),
      decodeDescriptor meta = .ok (d, meta') →
      ¬ (blockSliceHi d < d.dataOffset ∨ data.length < blockSliceHi d) →
      ¬ ((blockSliceHi d + 4) % U64 < blockSliceHi d ∨
         data.length < (blockSliceHi d + 4) % U64) →
      parseLokiBlockE ext enc (blockRaw data d) = .err e →
      chunkLoop ext enc data 1 meta Option.none acc =
        .ok (acc ++ [mkBlock d (blockRaw data d) (blockStored data d)
          (crc32c (blockRaw data d)) 0 []])) ∧
    parseLokiChunk extFail c10buf = .ok c10chunk := by
  refine ⟨?_, by decide⟩
  intro ext enc data meta meta' acc d e hdesc hs1 hs2 hbp
  unfold chunkLoop
  simp only [hdesc, if_neg hs1, if_neg hs2, hbp]
  unfold chunkLoop
  rfl

/-- Witness for claim C10's loop statement at the failing single-block
body. -/
theorem claimC10_witness :
    chunkLoop extFail Encoding.encNone c10buf 1 [0x01, 0x00, 0x00, 0x06, 0x01]
        Option.none [] =
      .ok [mkBlock ⟨1, 0, 0, 6, 1⟩ (blockRaw c10buf ⟨1, 0, 0, 6, 1⟩)
        (blockStored c10buf ⟨1, 0, 0, 6, 1⟩)
        (crc32c (blockRaw c10buf ⟨1, 0, 0, 6, 1⟩)) 0 []] := by
  have h := claimC10.1 extFail Encoding.encNone c10buf [0x01, 0x00, 0x00, 0x06, 0x01]
    [] [] ⟨1, 0, 0, 6, 1⟩ Err.varintErr rfl (by decide) (by decide) rfl
  simpa using h
